import Mathlib

/-!
# saug: image downloader for forum threads

A shallow embedding of `saug.go` and a verification of the properties its
specification states.

Go strings are modelled as `List Char`.  Every pattern the program searches
for (`abload.de/`, `/thumb/`, `[img]`, `[/img]`, `?`, `/`, CR, LF) is ASCII,
and UTF-8 is self-synchronising, so searching, splitting and replacing by
character agrees with what the Go library does by byte; no function of the
program looks at a character other than to compare it with one of these.

The Go standard library (`strings`, `path/filepath`, `regexp`) is not part of
the repository; the functions the program calls are modelled after their
documented behaviour, and every definition below says which Go function or
which lines of `saug.go` it stands for.
-/

set_option autoImplicit false

namespace Saug

/-! ## The `strings` package -/

/-- Go `strings.Index(s, sub)`: the index of the first occurrence of `sub` in
`s`; `none` stands for the library's `-1`. -/
def stringsIndex : List Char → List Char → Option Nat
  | [], sub => if sub = [] then some 0 else none
  | c :: t, sub =>
    if sub.isPrefixOf (c :: t) then some 0
    else (stringsIndex t sub).map (· + 1)

/-- Go `strings.Contains(s, sub)`, which is `Index(s, sub) >= 0`. -/
def stringsContains (s sub : List Char) : Bool :=
  (stringsIndex s sub).isSome

/-- Go `strings.Count(s, sub)` for a non-empty `sub`: the number of
non-overlapping occurrences, found by repeated `Index` from the end of the
previous occurrence.  The library loops until `Index` fails; an occurrence
consumes at least one character, so `fuel` = `len(s)` rounds reach that point
(`stringsCountLoop_fuel`). -/
def stringsCountLoop (sub : List Char) : Nat → List Char → Nat
  | 0, _ => 0
  | fuel + 1, s =>
    match stringsIndex s sub with
    | none => 0
    | some i => stringsCountLoop sub fuel (s.drop (i + sub.length)) + 1

/-- Go `strings.Count(s, sub)`, `sub` non-empty. -/
def stringsCount (s sub : List Char) : Nat :=
  stringsCountLoop sub s.length s

/-- The loop of Go `strings.Replace`: `n` rounds, each copying the text up to
the next occurrence of `old`, then `new`, and continuing behind the
occurrence; what is left after the last round is copied unchanged. -/
def stringsReplaceLoop (old new : List Char) : Nat → List Char → List Char
  | 0, s => s
  | n + 1, s =>
    match stringsIndex s old with
    | none => s
    | some j => s.take j ++ new ++ stringsReplaceLoop old new n (s.drop (j + old.length))

/-- Go `strings.Replace(s, old, new, -1)` for a non-empty `old` (the program
passes `/thumb/`, LF and CR): with a negative count the library sets the
number of rounds to `Count(s, old)`, and returns `s` itself when
`old == new`. -/
def stringsReplaceAll (s old new : List Char) : List Char :=
  if old = new then s else stringsReplaceLoop old new (stringsCount s old) s

/-- The loop of Go `strings.Split` (`genSplit`): `n` rounds, each cutting off
the text before the next separator; the remainder is the last piece. -/
def stringsSplitLoop (sep : List Char) : Nat → List Char → List (List Char)
  | 0, s => [s]
  | n + 1, s =>
    match stringsIndex s sep with
    | none => [s]
    | some m => s.take m :: stringsSplitLoop sep n (s.drop (m + sep.length))

/-- Go `strings.Split(s, sep)` for a non-empty `sep` (the program passes
`?`): `Count(s, sep) + 1` pieces. -/
def stringsSplit (s sep : List Char) : List (List Char) :=
  stringsSplitLoop sep (stringsCount s sep) s

/-! ## The `path/filepath` package (Unix: the separator is `/`, no volume names) -/

/-- Go `filepath.Base(path)`: the last element of the path.  Trailing
separators are removed first; the empty path gives `.`, a path of separators
only gives `/`. -/
def filepathBase (path : List Char) : List Char :=
  if path = [] then ".".toList
  else
    let stripped := (path.reverse.dropWhile (· = '/')).reverse
    let last := (stripped.reverse.takeWhile (· ≠ '/')).reverse
    if last = [] then "/".toList else last

/-- The elements of a path: the pieces between its separators (empty pieces
included). -/
def pathElements : List Char → List (List Char)
  | [] => [[]]
  | c :: t =>
    if c = '/' then [] :: pathElements t
    else
      match pathElements t with
      | e :: es => (c :: e) :: es
      | [] => [[c]]

/-- One element of the path in Go `filepath.Clean`; `kept` holds the elements
written so far, the last one written at the end.  Empty elements and `.` are
dropped; `..` removes the element before it, unless there is none or it is
itself a kept `..`, in which case `..` is kept when the path is not rooted
and dropped when it is. -/
def cleanStep (rooted : Bool) (kept : List (List Char)) (e : List Char) :
    List (List Char) :=
  if e = [] ∨ e = ".".toList then kept
  else if e = "..".toList then
    match kept.getLast? with
    | some top =>
      if top = "..".toList then kept ++ [e] else kept.dropLast
    | none => if rooted then kept else kept ++ [e]
  else kept ++ [e]

/-- Go `filepath.Clean(path)`: the shortest path equivalent to `path` by
purely lexical processing. -/
def filepathClean (path : List Char) : List Char :=
  if path = [] then ".".toList
  else
    let rooted := decide (path.head? = some '/')
    let kept := (pathElements path).foldl (cleanStep rooted) []
    let out := (if rooted then "/".toList else []) ++ "/".toList.intercalate kept
    if out = [] then ".".toList else out

/-- Go `filepath.Join(elem...)`: the elements from the first non-empty one
on, joined by the separator (`strings.Join`) and cleaned; the empty string
when every element is empty. -/
def filepathJoin (elem : List (List Char)) : List Char :=
  match elem.dropWhile (· = []) with
  | [] => []
  | e :: es => filepathClean ("/".toList.intercalate (e :: es))

/-! ## The `regexp` package, for the syntax `imgPattern` uses -/

/-- The regular expressions of the fragment: a sequence of items, each a
literal character or a capturing group around a greedy star of a negated
one-character class, `([^c]*)`. -/
inductive Re where
  | lit (c : Char)
  | groupStarNot (c : Char)
  deriving DecidableEq

/-- The item `([^c]*)` followed by the continuation `k`, by backtracking with
the priorities of the library: the star is greedy, so taking one more
character is tried first, and stopping here only when that fails. -/
def matchStarNot {α : Type} (c : Char) (k : List Char → Option α) :
    List Char → Option (List Char × α)
  | [] => (k []).map (fun r => ([], r))
  | x :: t =>
    if x = c then (k (x :: t)).map (fun r => ([], r))
    else
      match matchStarNot c k t with
      | some (g, r) => some (x :: g, r)
      | none => (k (x :: t)).map (fun r => ([], r))

/-- A match of the pattern at the very start of the text: the captured groups
and the text behind the match. -/
def matchHere : List Re → List Char → Option (List (List Char) × List Char)
  | [], s => some ([], s)
  | Re.lit c :: re, s =>
    match s with
    | x :: t => if x = c then matchHere re t else none
    | [] => none
  | Re.groupStarNot c :: re, s =>
    (matchStarNot c (matchHere re) s).map (fun r => (r.1 :: r.2.1, r.2.2))

/-- The leftmost match in the text: the start positions are tried from left
to right.  The result is the match as `FindStringSubmatch` reports it (the
whole matched text, then the groups) and the text behind the match. -/
def regexFind (re : List Re) : List Char → Option (List (List Char) × List Char)
  | [] => (matchHere re []).map (fun r => ([] :: r.1, r.2))
  | c :: t =>
    match matchHere re (c :: t) with
    | some r => some ((c :: t).take ((c :: t).length - r.2.length) :: r.1, r.2)
    | none => regexFind re t

/-- The loop of `FindAllStringSubmatch`: find the leftmost match, continue
behind it. -/
def regexFindAllLoop (re : List Re) : Nat → List Char → List (List (List Char))
  | 0, _ => []
  | fuel + 1, s =>
    match regexFind re s with
    | none => []
    | some (m, rest) => m :: regexFindAllLoop re fuel rest

/-- Go `re.FindAllStringSubmatch(s, -1)`: all successive non-overlapping
matches.  A match of `imgPattern` has at least eleven characters, so every
round consumes text and `len(s) + 1` rounds reach the end; the library's
special treatment of empty matches never applies and is not modelled. -/
def regexFindAllStringSubmatch (re : List Re) (s : List Char) : List (List (List Char)) :=
  regexFindAllLoop re (s.length + 1) s

/-! ## `saug.go` -/

/-- Lines 18-23: `type Thread struct`. -/
structure Thread where
  Tid : List Char
  URL : List Char
  Pages : Int
  FolderName : List Char
  deriving DecidableEq

/-- Lines 25-30: `type Overview struct`; `NumberOfPagesValue` is the field
`NumberOfPages.Value`. -/
structure Overview where
  NumberOfPagesValue : Int
  Title : List Char
  deriving DecidableEq

/-- Line 33: `fmt.Sprintf(baseURL, tid)`. -/
def sprintfBaseURL (tid : List Char) : List Char :=
  "https://forum.mods.de/bb/xml/thread.php?TID=".toList ++ tid

/-- Line 34: `fmt.Sprintf(pageURLPattern, tid, page)`; `%d` prints the page
number in decimal. -/
def sprintfPageURL (tid : List Char) (page : Nat) : List Char :=
  sprintfBaseURL tid ++ "&page=".toList ++ Nat.toDigits 10 page

/-- Line 35: `imgPattern`, the expression `\[img\]([^[]*)\[/img\]`. -/
def imgPattern : List Re :=
  [Re.lit '[', Re.lit 'i', Re.lit 'm', Re.lit 'g', Re.lit ']',
   Re.groupStarNot '[',
   Re.lit '[', Re.lit '/', Re.lit 'i', Re.lit 'm', Re.lit 'g', Re.lit ']']

/-- The errors the functions of `saug.go` return, one constructor for each
`fmt.Errorf`; the wrapped library error is kept only where it is one of
these. -/
inductive SaugError where
  | creatingRequest
  | fetchingThread
  | parsingXML
  | creatingDirectory (name : List Char)
  | fetchingPage
  | readingPageContent
  | validatingThreads (cause : SaugError)
  | creatingFolders (cause : SaugError)
  | gettingPages (tid : List Char) (cause : SaugError)
  deriving DecidableEq

/-- What the run does to the outside world, in the order it does it. -/
inductive Event where
  | getThread (url : List Char)
  | printInvalid (tid : List Char)
  | stat (name : List Char)
  | mkdirAll (name : List Char)
  | getPage (url : List Char)
  | goDownload (thread : Thread) (urls : List (List Char))
  | waitWait
  | cancel
  deriving DecidableEq

/-- The answer of the outside world to one metadata request of
`validateThreads`. -/
inductive MetaResult where
  | requestError
  | fetchError
  | parseError
  | decoded (overview : Overview)
  deriving DecidableEq

/-- The answer of the file system for one folder of `makeFolders`:
`os.Stat` does not report "not exist", or it does and `os.MkdirAll` succeeds
or fails. -/
inductive FolderResult where
  | present
  | created
  | mkdirError
  deriving DecidableEq

/-- The answer of the outside world to one page request of `getPages`. -/
inductive PageResult where
  | requestError
  | fetchError
  | readError
  | body (text : List Char)
  deriving DecidableEq

/-- The outside world of a run: the answer to the `i`-th metadata request,
for the `i`-th folder, and to the request for page `p` of the `k`-th
validated thread. -/
structure World where
  overview : Nat → List Char → MetaResult
  folder : Nat → List Char → FolderResult
  page : Nat → Nat → List Char → PageResult

/-- Lines 60-65: the `Thread` that `validateThreads` appends for the
identifier `tid` and its decoded overview; the folder name is
`fmt.Sprintf("%s (%s)", overview.Title, tid)`. -/
def descriptorOf (tid : List Char) (overview : Overview) : Thread :=
  { FolderName := overview.Title ++ " (".toList ++ tid ++ ")".toList,
    Tid := tid,
    URL := sprintfBaseURL tid,
    Pages := overview.NumberOfPagesValue }

/-- Lines 41-70: the loop of `validateThreads` from the `i`-th identifier on,
with `validThreads` as accumulated so far.  The result is what Go returns:
the slice and the error (`none` for nil). -/
def validateThreadsLoop (net : Nat → List Char → MetaResult) :
    Nat → List (List Char) → List Thread →
      List Event × List Thread × Option SaugError
  | _, [], validThreads => ([], validThreads, none)
  | i, tid :: rest, validThreads =>
    let url := sprintfBaseURL tid
    match net i url with
    | MetaResult.requestError => ([], [], some SaugError.creatingRequest)
    | MetaResult.fetchError => ([Event.getThread url], [], some SaugError.fetchingThread)
    | MetaResult.parseError => ([Event.getThread url], [], some SaugError.parsingXML)
    | MetaResult.decoded overview =>
      if overview.NumberOfPagesValue > 0 then
        let r := validateThreadsLoop net (i + 1) rest
          (validThreads ++ [descriptorOf tid overview])
        (Event.getThread url :: r.1, r.2)
      else
        let r := validateThreadsLoop net (i + 1) rest validThreads
        (Event.getThread url :: Event.printInvalid tid :: r.1, r.2)

/-- Lines 39-72: `validateThreads`. -/
def validateThreads (net : Nat → List Char → MetaResult) (threadIDs : List (List Char)) :
    List Event × List Thread × Option SaugError :=
  validateThreadsLoop net 0 threadIDs []

/-- Lines 74-83: `makeFolders`, from the `i`-th name on. -/
def makeFoldersLoop (fs : Nat → List Char → FolderResult) :
    Nat → List (List Char) → List Event × Option SaugError
  | _, [] => ([], none)
  | i, name :: rest =>
    match fs i name with
    | FolderResult.present =>
      let r := makeFoldersLoop fs (i + 1) rest
      (Event.stat name :: r.1, r.2)
    | FolderResult.created =>
      let r := makeFoldersLoop fs (i + 1) rest
      (Event.stat name :: Event.mkdirAll name :: r.1, r.2)
    | FolderResult.mkdirError =>
      ([Event.stat name, Event.mkdirAll name], some (SaugError.creatingDirectory name))

/-- Lines 74-83: `makeFolders`. -/
def makeFolders (fs : Nat → List Char → FolderResult) (ids : List (List Char)) :
    List Event × Option SaugError :=
  makeFoldersLoop fs 0 ids

/-- Lines 87-106: the loop of `getPages`; `todo` is the number of rounds
left, `page` the loop variable, `pages` the slice accumulated so far. -/
def getPagesLoop (net : Nat → List Char → PageResult) (tid : List Char) :
    Nat → Nat → List (List Char) → List Event × List (List Char) × Option SaugError
  | 0, _, pages => ([], pages, none)
  | todo + 1, page, pages =>
    let url := sprintfPageURL tid page
    match net page url with
    | PageResult.requestError => ([], [], some SaugError.creatingRequest)
    | PageResult.fetchError => ([Event.getPage url], [], some SaugError.fetchingPage)
    | PageResult.readError => ([Event.getPage url], [], some SaugError.readingPageContent)
    | PageResult.body text =>
      let r := getPagesLoop net tid todo (page + 1) (pages ++ [text])
      (Event.getPage url :: r.1, r.2)

/-- Lines 85-108: `getPages`; `for page := 1; page <= thread.Pages; page++`
makes `thread.Pages` rounds, none when `thread.Pages` is not positive. -/
def getPages (net : Nat → List Char → PageResult) (thread : Thread) :
    List Event × List (List Char) × Option SaugError :=
  getPagesLoop net thread.Tid thread.Pages.toNat 1 []

/-- Lines 117-119: what `extractURLs` makes of the captured text `match[1]`. -/
def rewriteURL (captured : List Char) : List Char :=
  let url := stringsReplaceAll captured "/thumb/".toList "/img/".toList
  let url := stringsReplaceAll url "\n".toList []
  stringsReplaceAll url "\r".toList []

/-- Lines 110-125: `extractURLs`. -/
def extractURLs (pages : List (List Char)) : List (List Char) :=
  pages.foldl
    (fun urls page =>
      (regexFindAllStringSubmatch imgPattern page).foldl
        (fun urls m => if h : 1 < m.length then urls ++ [rewriteURL m[1]] else urls)
        urls)
    []

/-- Lines 127-135 of `saug.go`: `filterURLs`.  The loop appends every URL
that contains `abload.de/` to the slice `filtered`, which starts out nil. -/
def filterURLs (urls : List (List Char)) : List (List Char) :=
  urls.foldl
    (fun filtered url =>
      if stringsContains url "abload.de/".toList then filtered ++ [url] else filtered)
    []

/-- Line 140: `fileName := strings.Split(filepath.Base(url), "?")[0]`.
`Split` with a non-empty separator never returns an empty slice, so the
index expression cannot fail. -/
def fileName (url : List Char) : List Char :=
  match stringsSplit (filepathBase url) "?".toList with
  | first :: _ => first
  | [] => []

/-- Line 141: `location := filepath.Join(thread.FolderName, fileName)`. -/
def location (thread : Thread) (url : List Char) : List Char :=
  filepathJoin [thread.FolderName, fileName url]

/-- What can happen to one URL in `downloadURLs`: the request cannot be
built, the transport fails, or there is a response with a status code; for
status 200, whether `os.Create` fails and whether `io.Copy` fails. -/
inductive DownloadResult where
  | requestError
  | transportError
  | status (code : Nat) (createFails copyFails : Bool)
  deriving DecidableEq

/-- What a download unit does, in the order it does it. -/
inductive DownloadEvent where
  | newRequest (url : List Char)
  | get (url : List Char)
  | create (location : List Char)
  | copy (location : List Char)
  | logged (url : List Char)
  | done
  deriving DecidableEq

/-- Lines 139-170: the loop of `downloadURLs`, from the `i`-th URL on.  After
a failed `os.Create` the file is nil and `io.Copy` into it fails with
`ErrInvalid`, so both failures are logged. -/
def downloadURLsLoop (net : Nat → List Char → DownloadResult) (thread : Thread) :
    Nat → List (List Char) → List DownloadEvent
  | _, [] => []
  | i, url :: rest =>
    let here :=
      match net i url with
      | DownloadResult.requestError =>
        [DownloadEvent.newRequest url, DownloadEvent.logged url]
      | DownloadResult.transportError =>
        [DownloadEvent.newRequest url, DownloadEvent.get url, DownloadEvent.logged url]
      | DownloadResult.status code createFails copyFails =>
        if code = 200 then
          [DownloadEvent.newRequest url, DownloadEvent.get url,
            DownloadEvent.create (location thread url)]
          ++ (if createFails then [DownloadEvent.logged url] else [])
          ++ [DownloadEvent.copy (location thread url)]
          ++ (if createFails ∨ copyFails then [DownloadEvent.logged url] else [])
        else
          [DownloadEvent.newRequest url, DownloadEvent.get url]
    here ++ downloadURLsLoop net thread (i + 1) rest

/-- Lines 137-171: `downloadURLs`; the deferred `wait.Done()` runs when the
loop is over.  The function has no result. -/
def downloadURLs (net : Nat → List Char → DownloadResult) (thread : Thread)
    (urls : List (List Char)) : List DownloadEvent :=
  downloadURLsLoop net thread 0 urls ++ [DownloadEvent.done]

/-- Lines 192-203: the loop of `run` over the validated threads, from the
`k`-th on.  The units it starts run concurrently; the trace records that
they were started. -/
def runLoop (w : World) : Nat → List Thread → List Event × Option SaugError
  | _, [] => ([], none)
  | k, thread :: rest =>
    let p := getPages (w.page k) thread
    match p.2.2 with
    | some err => (p.1, some (SaugError.gettingPages thread.Tid err))
    | none =>
      let urls := extractURLs p.2.1
      let abloadURLs := filterURLs urls
      let r := runLoop w (k + 1) rest
      (p.1 ++ Event.goDownload thread abloadURLs :: r.1, r.2)

/-- Lines 173-207: `run`.  The deferred `cancel()` runs on every return. -/
def run (w : World) (threadIDs : List (List Char)) : List Event × Option SaugError :=
  let v := validateThreads w.overview threadIDs
  match v.2.2 with
  | some err => (v.1 ++ [Event.cancel], some (SaugError.validatingThreads err))
  | none =>
    let threads := v.2.1
    let folderNames := threads.foldl (fun names thread => names ++ [thread.FolderName]) []
    let f := makeFolders w.folder folderNames
    match f.2 with
    | some err => (v.1 ++ f.1 ++ [Event.cancel], some (SaugError.creatingFolders err))
    | none =>
      let l := runLoop w 0 threads
      match l.2 with
      | some err => (v.1 ++ f.1 ++ l.1 ++ [Event.cancel], some err)
      | none => (v.1 ++ f.1 ++ l.1 ++ [Event.waitWait, Event.cancel], none)

/-! ## Definitions for the statements -/

/-- The events of the validation pass: metadata requests and the message for
a skipped identifier. -/
def Event.isValidation : Event → Bool
  | Event.getThread _ => true
  | Event.printInvalid _ => true
  | _ => false

/-- A world in which the second metadata response cannot be decoded. -/
def worldParseError : World where
  overview := fun i _ =>
    if i = 1 then MetaResult.parseError else MetaResult.decoded ⟨2, "Cats".toList⟩
  folder := fun _ _ => FolderResult.created
  page := fun _ _ _ => PageResult.body []

/-- The URL a download event asks a request for, if it is that event. -/
def DownloadEvent.requested : DownloadEvent → Option (List Char)
  | DownloadEvent.newRequest url => some url
  | _ => none

/-- The URL of a request a download event sends, if it is that event. -/
def DownloadEvent.fetched : DownloadEvent → Option (List Char)
  | DownloadEvent.get url => some url
  | _ => none

/-- The path of the file a download event creates, if it is that event. -/
def DownloadEvent.created : DownloadEvent → Option (List Char)
  | DownloadEvent.create path => some path
  | _ => none

/-- The path of the file a download event copies the body into, if it is
that event. -/
def DownloadEvent.copied : DownloadEvent → Option (List Char)
  | DownloadEvent.copy path => some path
  | _ => none

/-- A response arrived and its status is `http.StatusOK`. -/
def DownloadResult.statusOK : DownloadResult → Bool
  | DownloadResult.status code _ _ => decide (code = 200)
  | _ => false

/-- A world with two valid one-page threads in which the page request of the
second thread fails. -/
def worldSecondPageFails : World where
  overview := fun _ _ => MetaResult.decoded ⟨1, "Cats".toList⟩
  folder := fun _ _ => FolderResult.created
  page := fun k _ _ =>
    if k = 0 then PageResult.body "[img]http://abload.de/img/a.jpg[/img]".toList
    else PageResult.fetchError

/-- Specification side: the text captured by an image tag that starts at the
very beginning of `s`, when `s` is `[img]`, then a text without `[`, then
`[/img]`, then anything; `none` when `s` does not start with such a tag. -/
def imgTagAt (s : List Char) : Option (List Char) :=
  if "[img]".toList.isPrefixOf s then
    let body := s.drop 5
    if "[/img]".toList.isPrefixOf (body.dropWhile (fun x => decide (x ≠ '['))) then
      some (body.takeWhile (fun x => decide (x ≠ '[')))
    else none
  else none

/-- Specification side: the captured texts of the image tags of a page, one
for every position of the page at which a tag starts, from left to right. -/
def imgCaptures (page : List Char) : List (List Char) :=
  page.tails.filterMap imgTagAt

/-! ## Lemmas on `strings.Index` -/

theorem stringsIndex_isSome_iff (s sub : List Char) :
    (stringsIndex s sub).isSome = true ↔ sub <:+: s := by
  induction s with
  | nil =>
    by_cases h : sub = []
    · simp [stringsIndex, h]
    · simp [stringsIndex, h]
  | cons c t ih =>
    unfold stringsIndex
    by_cases h : sub.isPrefixOf (c :: t) = true
    · simp only [h, if_true, Option.isSome_some, true_iff]
      exact (List.isPrefixOf_iff_prefix.mp h).isInfix
    · rw [if_neg h]
      have hm : (Option.map (· + 1) (stringsIndex t sub)).isSome
          = (stringsIndex t sub).isSome := by
        cases stringsIndex t sub <;> rfl
      rw [hm, ih, List.infix_cons_iff]
      constructor
      · intro h1; exact Or.inr h1
      · rintro (h1 | h1)
        · exact absurd (List.isPrefixOf_iff_prefix.mpr h1) h
        · exact h1

theorem stringsContains_iff (s sub : List Char) :
    stringsContains s sub = true ↔ sub <:+: s :=
  stringsIndex_isSome_iff s sub

theorem stringsIndex_eq_none_iff (s sub : List Char) :
    stringsIndex s sub = none ↔ ¬ sub <:+: s := by
  rw [← stringsIndex_isSome_iff]
  cases stringsIndex s sub <;> simp

theorem stringsIndex_nil_left (sub : List Char) (hne : sub ≠ []) :
    stringsIndex [] sub = none := by
  simp [stringsIndex, hne]

theorem stringsIndex_some_ne_nil (s sub : List Char) (j : Nat) (hne : sub ≠ [])
    (h : stringsIndex s sub = some j) : s ≠ [] := by
  intro hs
  rw [hs, stringsIndex_nil_left sub hne] at h
  cases h

theorem stringsIndex_some_split (s sub : List Char) :
    ∀ j, stringsIndex s sub = some j → s = s.take j ++ sub ++ s.drop (j + sub.length) := by
  induction s with
  | nil =>
    intro j h
    by_cases hs : sub = []
    · simp [hs]
    · rw [stringsIndex_nil_left sub hs] at h; cases h
  | cons c t ih =>
    intro j h
    unfold stringsIndex at h
    by_cases hp : sub.isPrefixOf (c :: t) = true
    · rw [if_pos hp] at h
      cases h
      have := List.prefix_iff_eq_append.mp (List.isPrefixOf_iff_prefix.mp hp)
      simpa using this.symm
    · rw [if_neg hp] at h
      cases hi : stringsIndex t sub with
      | none => rw [hi] at h; cases h
      | some j2 =>
        rw [hi] at h
        cases h
        have := ih j2 hi
        have e : j2 + 1 + sub.length = (j2 + sub.length) + 1 := by omega
        rw [e, List.take_succ_cons, List.drop_succ_cons, List.cons_append, List.cons_append,
          ← this]

theorem stringsIndex_first (pre sub post : List Char) (hne : sub ≠ [])
    (h : ¬ sub <:+: pre ++ sub.dropLast) :
    stringsIndex (pre ++ sub ++ post) sub = some pre.length := by
  induction pre with
  | nil =>
    cases sub with
    | nil => exact absurd rfl hne
    | cons a sub2 =>
      simp only [List.nil_append, List.cons_append, stringsIndex]
      rw [if_pos]
      · rfl
      · rw [List.isPrefixOf_iff_prefix]
        exact List.prefix_append (a :: sub2) post
  | cons c pre2 ih =>
    have hnot : ¬ sub.isPrefixOf (c :: (pre2 ++ sub ++ post)) = true := by
      intro hp
      rw [List.isPrefixOf_iff_prefix] at hp
      apply h
      apply List.IsPrefix.isInfix
      have hlong : (c :: pre2) ++ sub.dropLast <+: c :: (pre2 ++ sub ++ post) := by
        have h1 : (c :: pre2) ++ sub.dropLast <+: (c :: pre2) ++ (sub ++ post) :=
          (List.prefix_append_right_inj (c :: pre2)).mpr
            ((List.dropLast_prefix sub).trans (List.prefix_append sub post))
        simpa [List.append_assoc] using h1
      apply List.prefix_of_prefix_length_le hp hlong
      simp only [List.length_append, List.length_cons, List.length_dropLast]
      have : 0 < sub.length := List.length_pos.mpr hne
      omega
    have hrest : ¬ sub <:+: pre2 ++ sub.dropLast := by
      intro hi
      apply h
      rw [List.cons_append, List.infix_cons_iff]
      exact Or.inr hi
    change stringsIndex (c :: (pre2 ++ sub ++ post)) sub = _
    rw [stringsIndex, if_neg hnot, ih hrest]
    rfl

theorem take_length_takeWhile (p : Char → Bool) (s : List Char) :
    s.take (s.takeWhile p).length = s.takeWhile p := by
  induction s with
  | nil => rfl
  | cons x t ih =>
    by_cases hx : p x = true
    · simp [List.takeWhile_cons, hx, ih]
    · simp [List.takeWhile_cons, hx]

theorem drop_length_takeWhile (p : Char → Bool) (s : List Char) :
    s.drop (s.takeWhile p).length = s.dropWhile p := by
  induction s with
  | nil => rfl
  | cons x t ih =>
    by_cases hx : p x = true
    · simp [List.takeWhile_cons, List.dropWhile_cons, hx, ih]
    · simp [List.takeWhile_cons, List.dropWhile_cons, hx]

theorem takeWhile_all (p : Char → Bool) (s : List Char) :
    ∀ a ∈ s.takeWhile p, p a = true := by
  induction s with
  | nil => intro a ha; simp at ha
  | cons x t ih =>
    intro a ha
    by_cases hx : p x = true
    · rw [List.takeWhile_cons, if_pos hx, List.mem_cons] at ha
      rcases ha with rfl | ha
      · exact hx
      · exact ih a ha
    · rw [List.takeWhile_cons, if_neg hx] at ha
      simp at ha

theorem stringsIndex_singleton (c : Char) (s : List Char) :
    stringsIndex s [c] =
      if c ∈ s then some (s.takeWhile (fun x => decide (x ≠ c))).length else none := by
  induction s with
  | nil => simp [stringsIndex]
  | cons x t ih =>
    unfold stringsIndex
    by_cases hx : x = c
    · subst hx
      simp [List.isPrefixOf]
    · have hp : ¬ List.isPrefixOf [c] (x :: t) = true := by
        simp [List.isPrefixOf]
        intro h; exact absurd h.symm hx
      rw [if_neg hp, ih]
      have hx2 : ¬ c = x := fun h => hx h.symm
      by_cases hm : c ∈ t
      · simp [hm, hx, List.takeWhile_cons]
      · simp [hm, hx2]

/-! ## `strings.Count`, `strings.Replace`, `strings.Split` -/

theorem length_drop_index_lt (s sub : List Char) (j : Nat) (hne : sub ≠ [])
    (h : stringsIndex s sub = some j) :
    (s.drop (j + sub.length)).length < s.length := by
  have h1 : 0 < s.length := List.length_pos.mpr (stringsIndex_some_ne_nil s sub j hne h)
  have h2 : 0 < sub.length := List.length_pos.mpr hne
  rw [List.length_drop]
  omega

/-- Enough fuel: with at least `len(s)` rounds the loop of `Count` reaches the
point where `Index` fails, so the result no longer depends on the fuel. -/
theorem stringsCountLoop_fuel (sub : List Char) (hne : sub ≠ []) :
    ∀ (f1 f2 : Nat) (s : List Char), s.length ≤ f1 → s.length ≤ f2 →
      stringsCountLoop sub f1 s = stringsCountLoop sub f2 s := by
  have base : ∀ (f : Nat) (s : List Char), s = [] → stringsCountLoop sub f s = 0 := by
    intro f s hs
    cases f with
    | zero => rfl
    | succ f => simp [stringsCountLoop, hs, stringsIndex_nil_left sub hne]
  intro f1
  induction f1 with
  | zero =>
    intro f2 s h1 _
    have hs : s = [] := List.length_eq_zero.mp (Nat.le_zero.mp h1)
    rw [base 0 s hs, base f2 s hs]
  | succ f1 ih =>
    intro f2 s h1 h2
    cases f2 with
    | zero =>
      have hs : s = [] := List.length_eq_zero.mp (Nat.le_zero.mp h2)
      rw [base _ s hs, base 0 s hs]
    | succ f2 =>
      unfold stringsCountLoop
      cases hi : stringsIndex s sub with
      | none => rfl
      | some j =>
        have := length_drop_index_lt s sub j hne hi
        simp only
        rw [ih f2 (s.drop (j + sub.length)) (by omega) (by omega)]

theorem stringsCount_none (s sub : List Char) (h : stringsIndex s sub = none) :
    stringsCount s sub = 0 := by
  unfold stringsCount
  cases s.length with
  | zero => rfl
  | succ n => simp [stringsCountLoop, h]

theorem stringsCount_some (s sub : List Char) (j : Nat) (hne : sub ≠ [])
    (h : stringsIndex s sub = some j) :
    stringsCount s sub = stringsCount (s.drop (j + sub.length)) sub + 1 := by
  have hlt := length_drop_index_lt s sub j hne h
  unfold stringsCount
  obtain ⟨n, hn⟩ : ∃ n, s.length = n + 1 := ⟨s.length - 1, by omega⟩
  rw [hn]
  simp only [stringsCountLoop, h]
  rw [stringsCountLoop_fuel sub hne n _ _ (by omega) (le_refl _)]

/-- `Replace` leaves a text without an occurrence of `old` unchanged. -/
theorem stringsReplaceAll_none (s old new : List Char)
    (h : stringsIndex s old = none) : stringsReplaceAll s old new = s := by
  unfold stringsReplaceAll
  split
  · rfl
  · rw [stringsCount_none s old h]; rfl

/-- `Replace` rewrites the first occurrence of `old` and goes on behind it. -/
theorem stringsReplaceAll_some (s old new : List Char) (j : Nat) (hne : old ≠ [])
    (h : stringsIndex s old = some j) :
    stringsReplaceAll s old new
      = s.take j ++ new ++ stringsReplaceAll (s.drop (j + old.length)) old new := by
  unfold stringsReplaceAll
  by_cases ho : old = new
  · simp only [ho, if_true]
    have := stringsIndex_some_split s old j h
    rw [ho] at this
    exact this
  · simp only [ho, if_false]
    rw [stringsCount_some s old j hne h]
    simp only [stringsReplaceLoop, h]

theorem stringsSplit_none (s sep : List Char) (h : stringsIndex s sep = none) :
    stringsSplit s sep = [s] := by
  unfold stringsSplit
  rw [stringsCount_none s sep h]; rfl

theorem stringsSplit_some (s sep : List Char) (j : Nat) (hne : sep ≠ [])
    (h : stringsIndex s sep = some j) :
    stringsSplit s sep = s.take j :: stringsSplit (s.drop (j + sep.length)) sep := by
  unfold stringsSplit
  rw [stringsCount_some s sep j hne h]
  simp only [stringsSplitLoop, h]

/-- The first piece of `Split` at a one-character separator is the text
before the first separator. -/
theorem stringsSplit_singleton_head (s : List Char) (c : Char) :
    ∃ rest, stringsSplit s [c] = s.takeWhile (fun x => decide (x ≠ c)) :: rest := by
  by_cases hm : c ∈ s
  · have hi := stringsIndex_singleton c s
    rw [if_pos hm] at hi
    refine ⟨stringsSplit
      (s.drop ((s.takeWhile (fun x => decide (x ≠ c))).length + [c].length)) [c], ?_⟩
    rw [stringsSplit_some s [c] _ (by simp) hi, take_length_takeWhile]
  · have hi := stringsIndex_singleton c s
    rw [if_neg hm] at hi
    refine ⟨[], ?_⟩
    rw [stringsSplit_none s [c] hi]
    congr 1
    symm
    rw [List.takeWhile_eq_self_iff]
    intro x hx
    simp only [decide_eq_true_eq]
    intro hxc; exact hm (hxc ▸ hx)

/-- Replacing a character by nothing deletes every occurrence of it. -/
theorem stringsReplaceAll_delete (c : Char) :
    ∀ (n : Nat) (s : List Char), s.length ≤ n →
      stringsReplaceAll s [c] [] = s.filter (fun x => decide (x ≠ c)) := by
  intro n
  induction n with
  | zero =>
    intro s hs
    have : s = [] := List.length_eq_zero.mp (Nat.le_zero.mp hs)
    subst this
    rw [stringsReplaceAll_none [] [c] [] (stringsIndex_nil_left [c] (by simp))]
    rfl
  | succ n ih =>
    intro s hs
    have hi := stringsIndex_singleton c s
    by_cases hm : c ∈ s
    · rw [if_pos hm] at hi
      rw [stringsReplaceAll_some s [c] [] _ (by simp) hi]
      have hlt := length_drop_index_lt s [c] _ (by simp) hi
      rw [ih _ (by omega)]
      have hsplit := stringsIndex_some_split s [c] _ hi
      have htw : s.take (s.takeWhile (fun x => decide (x ≠ c))).length
          = s.takeWhile (fun x => decide (x ≠ c)) := take_length_takeWhile _ s
      conv_rhs => rw [hsplit]
      rw [htw]
      simp only [List.filter_append, List.append_nil, List.append_assoc]
      have h1 : (s.takeWhile (fun x => decide (x ≠ c))).filter (fun x => decide (x ≠ c))
          = s.takeWhile (fun x => decide (x ≠ c)) := by
        rw [List.filter_eq_self]
        intro a ha
        exact takeWhile_all _ s a ha
      rw [h1]
      simp
    · rw [if_neg hm] at hi
      rw [stringsReplaceAll_none s [c] [] hi]
      symm
      rw [List.filter_eq_self]
      intro x hx
      simp only [decide_eq_true_eq]
      intro hxc; exact hm (hxc ▸ hx)

/-! ## The matcher on `imgPattern` -/

theorem matchHere_lits (lits : List Char) (re : List Re) :
    ∀ s, matchHere (lits.map Re.lit ++ re) s
      = if lits.isPrefixOf s then matchHere re (s.drop lits.length) else none := by
  induction lits with
  | nil => intro s; simp [List.isPrefixOf]
  | cons a as ih =>
    intro s
    cases s with
    | nil => simp [matchHere, List.isPrefixOf]
    | cons x t =>
      change matchHere (Re.lit a :: (as.map Re.lit ++ re)) (x :: t) = _
      rw [matchHere]
      by_cases hx : x = a
      · subst hx
        rw [if_pos rfl, ih t]
        simp [List.isPrefixOf]
      · have : ¬ a = x := fun h => hx h.symm
        rw [if_neg hx]
        simp [List.isPrefixOf, this]

theorem matchStarNot_eq {α : Type} (c : Char) (k : List Char → Option α)
    (hk : ∀ x t, x ≠ c → k (x :: t) = none) :
    ∀ s, matchStarNot c k s
      = (k (s.dropWhile (fun x => decide (x ≠ c)))).map
          (fun r => (s.takeWhile (fun x => decide (x ≠ c)), r)) := by
  intro s
  induction s with
  | nil => simp [matchStarNot]
  | cons x t ih =>
    unfold matchStarNot
    by_cases hx : x = c
    · simp [hx]
    · rw [if_neg hx, ih]
      have hd : (x :: t).dropWhile (fun x => decide (x ≠ c))
          = t.dropWhile (fun x => decide (x ≠ c)) := by
        rw [List.dropWhile_cons, if_pos (by simpa using hx)]
      have ht : (x :: t).takeWhile (fun x => decide (x ≠ c))
          = x :: t.takeWhile (fun x => decide (x ≠ c)) := by
        rw [List.takeWhile_cons, if_pos (by simpa using hx)]
      rw [hd, ht]
      cases hkk : k (t.dropWhile (fun x => decide (x ≠ c))) with
      | none => simp [hk x t hx]
      | some r => simp

theorem imgPattern_eq :
    imgPattern = "[img]".toList.map Re.lit
      ++ (Re.groupStarNot '[' :: ("[/img]".toList.map Re.lit ++ [])) := by
  decide

theorem matchHere_close (s : List Char) :
    matchHere ("[/img]".toList.map Re.lit ++ []) s
      = if "[/img]".toList.isPrefixOf s then some ([], s.drop 6) else none := by
  rw [matchHere_lits]
  rfl

theorem matchHere_imgPattern (s : List Char) :
    matchHere imgPattern s =
      if "[img]".toList.isPrefixOf s then
        if "[/img]".toList.isPrefixOf ((s.drop 5).dropWhile (fun x => decide (x ≠ '['))) then
          some ([(s.drop 5).takeWhile (fun x => decide (x ≠ '['))],
            ((s.drop 5).dropWhile (fun x => decide (x ≠ '['))).drop 6)
        else none
      else none := by
  rw [imgPattern_eq, matchHere_lits]
  by_cases h1 : "[img]".toList.isPrefixOf s = true
  · rw [if_pos h1, if_pos h1]
    have hlen : "[img]".toList.length = 5 := rfl
    rw [hlen, matchHere]
    rw [matchStarNot_eq '[' _ (by
      intro x t hx
      rw [matchHere_close]
      have hx2 : ¬ '[' = x := fun h => hx h.symm
      simp [List.isPrefixOf, hx2])]
    rw [matchHere_close]
    by_cases h2 : "[/img]".toList.isPrefixOf
        ((s.drop 5).dropWhile (fun x => decide (x ≠ '['))) = true
    · rw [if_pos h2, if_pos h2]; rfl
    · rw [if_neg h2, if_neg h2]; rfl
  · rw [if_neg h1, if_neg h1]

theorem imgTagAt_eq_matchHere (s : List Char) :
    imgTagAt s = (matchHere imgPattern s).bind (fun r => r.1[0]?) := by
  rw [matchHere_imgPattern]
  unfold imgTagAt
  by_cases h1 : "[img]".toList.isPrefixOf s = true
  · rw [if_pos h1, if_pos h1]
    by_cases h2 : "[/img]".toList.isPrefixOf
        ((s.drop 5).dropWhile (fun x => decide (x ≠ '['))) = true
    · simp only [h2, if_true]; rfl
    · simp only [h2]; rfl
  · rw [if_neg h1, if_neg h1]; rfl

/-- The occurrences the pattern recognises: `[img]`, a text without `[`,
`[/img]`. -/
theorem imgTagAt_eq_some_iff (s captured : List Char) :
    imgTagAt s = some captured ↔
      '[' ∉ captured
        ∧ ∃ rest, s = "[img]".toList ++ captured ++ "[/img]".toList ++ rest := by
  unfold imgTagAt
  constructor
  · intro h
    by_cases h1 : "[img]".toList.isPrefixOf s = true
    · rw [if_pos h1] at h
      by_cases h2 : "[/img]".toList.isPrefixOf
          ((s.drop 5).dropWhile (fun x => decide (x ≠ '['))) = true
      · simp only [h2, if_true, Option.some.injEq] at h
        have e1 := List.prefix_iff_eq_append.mp (List.isPrefixOf_iff_prefix.mp h1)
        have e2 := List.prefix_iff_eq_append.mp (List.isPrefixOf_iff_prefix.mp h2)
        have e3 := List.takeWhile_append_dropWhile (fun x => decide (x ≠ '[')) (s.drop 5)
        refine ⟨?_, ((s.drop 5).dropWhile (fun x => decide (x ≠ '['))).drop 6, ?_⟩
        · intro hm
          rw [← h] at hm
          have := takeWhile_all _ _ _ hm
          simp at this
        · have hlen1 : "[img]".toList.length = 5 := rfl
          have hlen2 : "[/img]".toList.length = 6 := rfl
          rw [hlen1] at e1
          rw [hlen2] at e2
          rw [← h, List.append_assoc, List.append_assoc, e2, e3, e1]
      · simp only [h2] at h
        cases h
    · rw [if_neg h1] at h; cases h
  · rintro ⟨hc, rest, rfl⟩
    have hall : ∀ a ∈ captured, decide (a ≠ '[') = true := by
      intro a ha
      simp only [decide_eq_true_eq]
      intro h; exact hc (h ▸ ha)
    have h1 : "[img]".toList.isPrefixOf
        ("[img]".toList ++ captured ++ "[/img]".toList ++ rest) = true := by
      rw [List.isPrefixOf_iff_prefix, List.append_assoc, List.append_assoc]
      exact List.prefix_append _ _
    have hd : ("[img]".toList ++ captured ++ "[/img]".toList ++ rest).drop 5
        = captured ++ ("[/img]".toList ++ rest) := by
      rw [List.append_assoc, List.append_assoc]
      rfl
    rw [if_pos h1]
    simp only [hd]
    rw [List.dropWhile_append_of_pos hall, List.takeWhile_append_of_pos hall]
    have h2 : ("[/img]".toList ++ rest).dropWhile (fun x => decide (x ≠ '['))
        = "[/img]".toList ++ rest := rfl
    have h3 : ("[/img]".toList ++ rest).takeWhile (fun x => decide (x ≠ '[')) = [] := rfl
    rw [h2, h3, if_pos]
    · simp
    · rw [List.isPrefixOf_iff_prefix]
      exact List.prefix_append _ _

/-! ## `FindAllStringSubmatch` on `imgPattern` -/

theorem matchHere_imgPattern_some (s : List Char) (r : List (List Char) × List Char)
    (h : matchHere imgPattern s = some r) :
    ∃ captured, r.1 = [captured] ∧ '[' ∉ captured
      ∧ s = "[img]".toList ++ captured ++ "[/img]".toList ++ r.2 := by
  have h0 := h
  rw [matchHere_imgPattern] at h
  by_cases h1 : "[img]".toList.isPrefixOf s = true
  · rw [if_pos h1] at h
    by_cases h2 : "[/img]".toList.isPrefixOf
        ((s.drop 5).dropWhile (fun x => decide (x ≠ '['))) = true
    · rw [if_pos h2] at h
      cases h
      refine ⟨_, rfl, ?_, ?_⟩
      · intro hm
        have := takeWhile_all _ _ _ hm
        simp at this
      · have e1 := List.prefix_iff_eq_append.mp (List.isPrefixOf_iff_prefix.mp h1)
        have e2 := List.prefix_iff_eq_append.mp (List.isPrefixOf_iff_prefix.mp h2)
        have e3 := List.takeWhile_append_dropWhile (fun x => decide (x ≠ '[')) (s.drop 5)
        have hlen1 : "[img]".toList.length = 5 := rfl
        have hlen2 : "[/img]".toList.length = 6 := rfl
        rw [hlen1] at e1
        rw [hlen2] at e2
        simp only
        rw [List.append_assoc, List.append_assoc, e2, e3, e1]
    · rw [if_neg h2] at h; cases h
  · rw [if_neg h1] at h; cases h

theorem imgTagAt_cons_ne (x : Char) (t : List Char) (hx : x ≠ '[') :
    imgTagAt (x :: t) = none := by
  have hx2 : ¬ '[' = x := fun h => hx h.symm
  simp [imgTagAt, List.isPrefixOf, hx2]

theorem imgTagAt_inside (rest : List Char) :
    ∀ (inner v : List Char), (∀ a ∈ inner, a ≠ '[') → v ≠ [] →
      v <:+ inner ++ "[/img]".toList → imgTagAt (v ++ rest) = none := by
  intro inner
  induction inner with
  | nil =>
    intro v _ hv hs
    have h6 : "[/img]".toList = ['[', '/', 'i', 'm', 'g', ']'] := rfl
    rw [List.nil_append, h6] at hs
    simp only [List.suffix_cons_iff, List.suffix_nil] at hs
    rcases hs with rfl | rfl | rfl | rfl | rfl | rfl | rfl
    · rfl
    · rfl
    · rfl
    · rfl
    · rfl
    · rfl
    · exact absurd rfl hv
  | cons y inner2 ih =>
    intro v hall hv hs
    rw [List.cons_append, List.suffix_cons_iff] at hs
    rcases hs with rfl | hs
    · exact imgTagAt_cons_ne y _ (hall y (List.mem_cons_self y inner2))
    · exact ih v (fun a ha => hall a (List.mem_cons_of_mem y ha)) hv hs

theorem filterMap_tails_skip (f : List Char → Option (List Char)) (rest : List Char) :
    ∀ u : List Char, (∀ v, v ≠ [] → v <:+ u → f (v ++ rest) = none) →
      (u ++ rest).tails.filterMap f = rest.tails.filterMap f := by
  intro u
  induction u with
  | nil => intro _; rfl
  | cons x u2 ih =>
    intro h
    rw [List.cons_append, List.tails_cons, List.filterMap_cons]
    have h0 := h (x :: u2) (by simp) (List.suffix_refl _)
    rw [List.cons_append] at h0
    rw [h0]
    exact ih (fun v hv hs => h v hv (hs.trans (List.suffix_cons x u2)))

/-- Occurrences never overlap: behind an image tag the next one can only
start behind its `[/img]`. -/
theorem imgCaptures_tag (captured rest : List Char) (hc : '[' ∉ captured) :
    imgCaptures ("[img]".toList ++ captured ++ "[/img]".toList ++ rest)
      = captured :: imgCaptures rest := by
  have hs : "[img]".toList ++ captured ++ "[/img]".toList ++ rest
      = '[' :: (("img]".toList ++ captured ++ "[/img]".toList) ++ rest) := by
    simp
  have htag : imgTagAt ("[img]".toList ++ captured ++ "[/img]".toList ++ rest)
      = some captured := (imgTagAt_eq_some_iff _ _).mpr ⟨hc, rest, rfl⟩
  unfold imgCaptures
  rw [hs, List.tails_cons, List.filterMap_cons, ← hs, htag]
  simp only
  congr 1
  apply filterMap_tails_skip
  intro v hv hsuf
  apply imgTagAt_inside rest ("img]".toList ++ captured) v _ hv hsuf
  intro a ha
  rw [List.mem_append] at ha
  rcases ha with ha | ha
  · intro h; subst h; revert ha; decide
  · intro h; exact hc (h ▸ ha)

theorem imgCaptures_cons_none (c : Char) (t : List Char) (h : imgTagAt (c :: t) = none) :
    imgCaptures (c :: t) = imgCaptures t := by
  unfold imgCaptures
  rw [List.tails_cons, List.filterMap_cons, h]

/-- Enough fuel: with more than `len(s)` rounds the loop of
`FindAllStringSubmatch` finds the captured text of every image tag of `s`. -/
theorem regexFindAllLoop_imgPattern :
    ∀ (n : Nat) (s : List Char), s.length ≤ n → ∀ fuel, s.length < fuel →
      (regexFindAllLoop imgPattern fuel s).filterMap (fun m => m[1]?) = imgCaptures s := by
  intro n
  induction n with
  | zero =>
    intro s hs fuel hf
    have : s = [] := List.length_eq_zero.mp (Nat.le_zero.mp hs)
    subst this
    cases fuel with
    | zero => simp at hf
    | succ f => rfl
  | succ n ih =>
    intro s hs
    cases s with
    | nil =>
      intro fuel hf
      cases fuel with
      | zero => simp at hf
      | succ f => rfl
    | cons c t =>
      intro fuel hf
      cases fuel with
      | zero => simp at hf
      | succ f =>
        have htag := imgTagAt_eq_matchHere (c :: t)
        cases hm : matchHere imgPattern (c :: t) with
        | none =>
          rw [hm] at htag
          rw [imgCaptures_cons_none c t htag]
          have hfind : regexFind imgPattern (c :: t) = regexFind imgPattern t := by
            rw [regexFind, hm]
          have hl : t.length ≤ n := by simpa using hs
          rw [← ih t hl (f + 1) (by simp at hf; omega)]
          simp only [regexFindAllLoop, hfind]
        | some r =>
          obtain ⟨captured, hr1, hc, hs2⟩ := matchHere_imgPattern_some (c :: t) r hm
          have hfind : regexFind imgPattern (c :: t)
              = some ((c :: t).take ((c :: t).length - r.2.length) :: r.1, r.2) := by
            rw [regexFind, hm]
          have hlen : r.2.length + 11 ≤ (c :: t).length := by
            have := congrArg List.length hs2
            simp only [List.length_append] at this
            have h5 : "[img]".toList.length = 5 := rfl
            have h6 : "[/img]".toList.length = 6 := rfl
            omega
          simp only [List.length_cons] at hlen hs hf
          simp only [regexFindAllLoop, hfind, List.filterMap_cons, hr1]
          rw [ih r.2 (by omega) f (by omega)]
          rw [hs2, imgCaptures_tag captured r.2 hc]
          rfl

theorem regexFindAll_imgPattern (page : List Char) :
    (regexFindAllStringSubmatch imgPattern page).filterMap (fun m => m[1]?)
      = imgCaptures page :=
  regexFindAllLoop_imgPattern page.length page (le_refl _) (page.length + 1)
    (Nat.lt_succ_self _)

/-! ## `filepath.Base` and the file name -/

theorem fileName_eq (url : List Char) :
    fileName url = (filepathBase url).takeWhile (fun x => decide (x ≠ '?')) := by
  unfold fileName
  have h1 : "?".toList = ['?'] := rfl
  obtain ⟨rest, h⟩ := stringsSplit_singleton_head (filepathBase url) '?'
  rw [h1, h]

theorem takeWhile_ne_nil (p : Char → Bool) (l : List Char) (hl : l ≠ [])
    (h : ∀ x, l.head? = some x → p x = true) : l.takeWhile p ≠ [] := by
  cases l with
  | nil => exact absurd rfl hl
  | cons x t =>
    rw [List.takeWhile_cons, if_pos (h x rfl)]
    simp

/-- The base of a path with a character other than the separator is its last
element, which contains no separator. -/
theorem filepathBase_no_separator (path : List Char) (c : Char) (hc : c ∈ path)
    (hne : c ≠ '/') : '/' ∉ filepathBase path := by
  have hpath : path ≠ [] := List.ne_nil_of_mem hc
  unfold filepathBase
  rw [if_neg hpath]
  simp only [List.reverse_reverse]
  have hdrop : path.reverse.dropWhile (fun x => decide (x = '/')) ≠ [] := by
    intro h
    rw [List.dropWhile_eq_nil_iff] at h
    have := h c (List.mem_reverse.mpr hc)
    simp only [decide_eq_true_eq] at this
    exact hne this
  have hlast : ((path.reverse.dropWhile (fun x => decide (x = '/'))).takeWhile
      (fun x => decide (x ≠ '/'))).reverse ≠ [] := by
    intro h
    rw [List.reverse_eq_nil_iff] at h
    revert h
    apply takeWhile_ne_nil _ _ hdrop
    intro x hx
    have := List.head?_dropWhile_not (fun x => decide (x = '/')) path.reverse
    rw [hx] at this
    simp only [Option.all_some, Bool.not_eq_true', decide_eq_false_iff_not] at this
    simpa using this
  rw [if_neg hlast]
  intro hm
  rw [List.mem_reverse] at hm
  have := takeWhile_all _ _ _ hm
  simp at this

theorem fileName_no_separator (url : List Char) (h : "abload.de/".toList <:+: url) :
    '/' ∉ fileName url := by
  have ha : 'a' ∈ url := by
    obtain ⟨s, t, rfl⟩ := h
    simp
  have hb := filepathBase_no_separator url 'a' ha (by decide)
  rw [fileName_eq]
  intro hm
  exact hb ((List.takeWhile_sublist _).subset hm)

/-! ## `filepath.Clean` and `filepath.Join` -/

theorem pathElements_ne_nil (p : List Char) : pathElements p ≠ [] := by
  cases p with
  | nil => simp [pathElements]
  | cons c t =>
    unfold pathElements
    split
    · simp
    · split <;> simp

theorem pathElements_append_separator (a b : List Char) :
    pathElements (a ++ '/' :: b) = pathElements a ++ pathElements b := by
  induction a with
  | nil => simp [pathElements]
  | cons c a2 ih =>
    change pathElements (c :: (a2 ++ '/' :: b)) = pathElements (c :: a2) ++ _
    rw [pathElements, pathElements]
    by_cases hc : c = '/'
    · rw [if_pos hc, if_pos hc, ih]; rfl
    · rw [if_neg hc, if_neg hc, ih]
      cases h : pathElements a2 with
      | nil => exact absurd h (pathElements_ne_nil a2)
      | cons e es => rfl

theorem pathElements_no_separator (name : List Char) (h : '/' ∉ name) :
    pathElements name = [name] := by
  induction name with
  | nil => rfl
  | cons c t ih =>
    have hc : c ≠ '/' := fun e => h (e ▸ List.mem_cons_self c t)
    have ht : '/' ∉ t := fun m => h (List.mem_cons_of_mem c m)
    rw [pathElements, if_neg hc, ih ht]

theorem pathElements_concat (g : List Char) (c : Char) (hc : c ≠ '/') :
    ∃ init e, pathElements (g ++ [c]) = init ++ [e ++ [c]] := by
  induction g with
  | nil => exact ⟨[], [], by simp [pathElements, hc]⟩
  | cons x g2 ih =>
    obtain ⟨init, e, h⟩ := ih
    change ∃ init e, pathElements (x :: (g2 ++ [c])) = init ++ [e ++ [c]]
    rw [pathElements, h]
    by_cases hx : x = '/'
    · rw [if_pos hx]
      exact ⟨[] :: init, e, rfl⟩
    · rw [if_neg hx]
      cases init with
      | nil => exact ⟨[], x :: e, rfl⟩
      | cons i0 init2 => exact ⟨(x :: i0) :: init2, e, rfl⟩

/-- An element that `Clean` keeps as it is: not empty, not `.`, not `..`. -/
theorem cleanStep_regular (rooted : Bool) (kept : List (List Char)) (e : List Char)
    (h0 : e ≠ []) (h1 : e ≠ ".".toList) (h2 : e ≠ "..".toList) :
    cleanStep rooted kept e = kept ++ [e] := by
  unfold cleanStep
  rw [if_neg (by rintro (h | h); exact h0 h; exact h1 h), if_neg h2]

theorem intercalate_concat (sep : List Char) (xs : List (List Char)) (y z : List Char) :
    sep.intercalate (xs ++ [y] ++ [z]) = sep.intercalate (xs ++ [y]) ++ sep ++ z := by
  induction xs with
  | nil => simp [List.intercalate, List.intersperse]
  | cons x xs2 ih =>
    cases hx : xs2 ++ [y] with
    | nil => simp at hx
    | cons w ws =>
      have e1 : x :: xs2 ++ [y] ++ [z] = x :: (w :: (ws ++ [z])) := by
        show x :: ((xs2 ++ [y]) ++ [z]) = _
        rw [hx]; rfl
      have e2 : x :: xs2 ++ [y] = x :: w :: ws := by
        rw [List.cons_append, hx]
      have e3 : xs2 ++ [y] ++ [z] = w :: (ws ++ [z]) := by rw [hx]; rfl
      rw [e1, e2]
      rw [e3, hx] at ih
      simp only [List.intercalate, List.intersperse_cons₂, List.flatten_cons] at ih ⊢
      rw [ih]
      simp [List.append_assoc]

theorem intercalate_concat_ne_nil (sep : List Char) (xs : List (List Char)) (y : List Char)
    (hy : y ≠ []) : sep.intercalate (xs ++ [y]) ≠ [] := by
  induction xs with
  | nil => simpa [List.intercalate, List.intersperse] using hy
  | cons x xs2 ih =>
    cases hx : xs2 ++ [y] with
    | nil => simp at hx
    | cons w ws =>
      rw [List.cons_append, hx]
      rw [hx] at ih
      simp only [List.intercalate, List.intersperse_cons₂, List.flatten_cons] at ih ⊢
      simp only [ne_eq, List.append_eq_nil, not_and]
      intro _ _
      exact ih

/-- `Clean` of a path whose last element it keeps, with one more element it
keeps: the cleaned path, the separator, the element. -/
theorem filepathClean_append_element (folder name : List Char) (c : Char)
    (hc : c ≠ '/') (hc2 : c ≠ '.') (hsep : '/' ∉ name)
    (h0 : name ≠ []) (h1 : name ≠ ".".toList) (h2 : name ≠ "..".toList) :
    filepathClean ((folder ++ [c]) ++ '/' :: name)
      = filepathClean (folder ++ [c]) ++ '/' :: name := by
  obtain ⟨init, e, he⟩ := pathElements_concat folder c hc
  have hreg0 : e ++ [c] ≠ [] := by simp
  have hreg1 : e ++ [c] ≠ ".".toList := by
    intro h
    have := congrArg List.getLast? h
    rw [List.getLast?_concat] at this
    have hd : ".".toList.getLast? = some '.' := rfl
    rw [hd] at this
    exact hc2 (Option.some.inj this)
  have hreg2 : e ++ [c] ≠ "..".toList := by
    intro h
    have := congrArg List.getLast? h
    rw [List.getLast?_concat] at this
    have hd : "..".toList.getLast? = some '.' := rfl
    rw [hd] at this
    exact hc2 (Option.some.inj this)
  have hhead : ((folder ++ [c]) ++ '/' :: name).head? = (folder ++ [c]).head? := by
    cases folder <;> rfl
  have hne := intercalate_concat_ne_nil "/".toList
    (List.foldl (cleanStep (decide ((folder ++ [c]).head? = some '/'))) [] init) (e ++ [c]) hreg0
  have hne2 : ∀ root : List Char, ¬ root ++ "/".toList.intercalate
      (List.foldl (cleanStep (decide ((folder ++ [c]).head? = some '/'))) [] init
        ++ [e ++ [c]]) = [] :=
    fun root h => hne (List.append_eq_nil.mp h).2
  have hleft : filepathClean (folder ++ [c])
      = (if decide ((folder ++ [c]).head? = some '/') = true then "/".toList else [])
        ++ "/".toList.intercalate
          (List.foldl (cleanStep (decide ((folder ++ [c]).head? = some '/'))) [] init
            ++ [e ++ [c]]) := by
    unfold filepathClean
    rw [if_neg (by simp)]
    dsimp only
    rw [he, List.foldl_append, List.foldl_cons, List.foldl_nil,
      cleanStep_regular _ _ _ hreg0 hreg1 hreg2, if_neg (hne2 _)]
  have hright : filepathClean ((folder ++ [c]) ++ '/' :: name)
      = (if decide ((folder ++ [c]).head? = some '/') = true then "/".toList else [])
        ++ "/".toList.intercalate
          (List.foldl (cleanStep (decide ((folder ++ [c]).head? = some '/'))) [] init
            ++ [e ++ [c]] ++ [name]) := by
    unfold filepathClean
    rw [if_neg (by simp)]
    dsimp only
    rw [hhead, pathElements_append_separator, pathElements_no_separator name hsep, he,
      List.foldl_append, List.foldl_append, List.foldl_cons, List.foldl_nil, List.foldl_cons,
      List.foldl_nil, cleanStep_regular _ _ _ hreg0 hreg1 hreg2,
      cleanStep_regular _ _ _ h0 h1 h2, intercalate_concat, if_neg]
    intro h
    have h3 := (List.append_eq_nil.mp h).2
    have h4 := (List.append_eq_nil.mp h3).1
    exact hne (List.append_eq_nil.mp h4).1
  rw [hleft, hright, intercalate_concat]
  simp only [List.append_assoc]
  rfl

/-! ## `filterURLs` -/

theorem filterURLs_foldl (p : List Char → Bool) (acc urls : List (List Char)) :
    urls.foldl (fun filtered url => if p url then filtered ++ [url] else filtered) acc
      = acc ++ urls.filter p := by
  induction urls generalizing acc with
  | nil => simp
  | cons u us ih =>
    by_cases h : p u = true
    · simp [List.foldl_cons, h, ih, List.filter_cons]
    · simp [List.foldl_cons, h, ih, List.filter_cons]

theorem filterURLs_eq (urls : List (List Char)) :
    filterURLs urls = urls.filter (fun url => decide ("abload.de/".toList <:+: url)) := by
  unfold filterURLs
  rw [filterURLs_foldl (fun url => stringsContains url "abload.de/".toList)]
  simp only [List.nil_append]
  apply List.filter_congr
  intro u _
  rw [Bool.eq_iff_iff, stringsContains_iff]
  simp

/-- C1: `filterURLs` returns exactly the input URLs that contain the
substring `abload.de/`, in their original order and with their multiplicity;
a URL is in the output if and only if it is in the input and contains
`abload.de/`. -/
theorem filterURLs_spec (urls : List (List Char)) :
    filterURLs urls = urls.filter (fun url => decide ("abload.de/".toList <:+: url))
    ∧ (filterURLs urls).Sublist urls
    ∧ (∀ url, url ∈ filterURLs urls ↔ url ∈ urls ∧ "abload.de/".toList <:+: url)
    ∧ (∀ url, "abload.de/".toList <:+: url →
        (filterURLs urls).count url = urls.count url) := by
  have h := filterURLs_eq urls
  refine ⟨h, ?_, ?_, ?_⟩
  · rw [h]; exact List.filter_sublist _
  · intro url; rw [h]; simp [List.mem_filter]
  · intro url hu
    rw [h, List.count_filter]
    simpa using hu

/-! ## `extractURLs` -/

theorem extractURLs_inner (ms : List (List (List Char))) :
    ∀ acc : List (List Char),
      ms.foldl (fun urls m => if h : 1 < m.length then urls ++ [rewriteURL m[1]] else urls) acc
        = acc ++ (ms.filterMap (fun m => m[1]?)).map rewriteURL := by
  induction ms with
  | nil => intro acc; simp
  | cons m ms ih =>
    intro acc
    rw [List.foldl_cons, ih, List.filterMap_cons]
    by_cases h : 1 < m.length
    · rw [dif_pos h]
      have : m[1]? = some m[1] := List.getElem?_eq_getElem h
      rw [this]
      simp
    · rw [dif_neg h]
      have : m[1]? = none := List.getElem?_eq_none (by omega)
      rw [this]

theorem extractURLs_outer (pages : List (List Char)) :
    ∀ acc : List (List Char),
      pages.foldl
        (fun urls page =>
          (regexFindAllStringSubmatch imgPattern page).foldl
            (fun urls m => if h : 1 < m.length then urls ++ [rewriteURL m[1]] else urls)
            urls)
        acc
        = acc ++ (pages.flatMap imgCaptures).map rewriteURL := by
  induction pages with
  | nil => intro acc; simp
  | cons p ps ih =>
    intro acc
    rw [List.foldl_cons, ih, extractURLs_inner, regexFindAll_imgPattern]
    simp [List.flatMap_cons]

theorem extractURLs_eq (pages : List (List Char)) :
    extractURLs pages = (pages.flatMap imgCaptures).map rewriteURL := by
  unfold extractURLs
  rw [extractURLs_outer]
  rfl

/-! ## The properties of `extractURLs` -/

theorem rewriteURL_eq (captured : List Char) :
    rewriteURL captured
      = (stringsReplaceAll captured "/thumb/".toList "/img/".toList).filter
          (fun x => decide (x ≠ '\n' ∧ x ≠ '\r')) := by
  unfold rewriteURL
  have hn : "\n".toList = ['\n'] := rfl
  have hr : "\r".toList = ['\r'] := rfl
  simp only [hn, hr]
  rw [stringsReplaceAll_delete '\r' _ _ (le_refl _), stringsReplaceAll_delete '\n' _ _ (le_refl _),
    List.filter_filter]
  apply List.filter_congr
  intro x _
  by_cases h1 : x = '\n' <;> by_cases h2 : x = '\r' <;> simp [h1, h2]

theorem extractURLs_single_tag (captured : List Char) (hc : '[' ∉ captured) :
    extractURLs ["[img]".toList ++ captured ++ "[/img]".toList] = [rewriteURL captured] := by
  rw [extractURLs_eq]
  have := imgCaptures_tag captured [] hc
  rw [List.append_nil] at this
  simp only [List.flatMap_cons, List.flatMap_nil, List.append_nil, this]
  rfl

/-- C2, amended: `extractURLs` yields one URL for every occurrence of
`[img]`, a text without `[`, `[/img]` in the pages, in discovery order: page
by page, and within a page from left to right; in particular it distributes
over the concatenation of page lists.  Such occurrences never overlap: no
occurrence starts inside another one. -/
theorem extractURLs_every_tag :
    (∀ pages : List (List Char),
      extractURLs pages
        = (pages.flatMap (fun page => page.tails.filterMap imgTagAt)).map rewriteURL)
    ∧ (∀ ps qs : List (List Char),
      extractURLs (ps ++ qs) = extractURLs ps ++ extractURLs qs)
    ∧ (∀ s captured : List Char,
      imgTagAt s = some captured ↔
        '[' ∉ captured
          ∧ ∃ rest, s = "[img]".toList ++ captured ++ "[/img]".toList ++ rest)
    ∧ (∀ captured rest : List Char, '[' ∉ captured →
      ("[img]".toList ++ captured ++ "[/img]".toList ++ rest).tails.filterMap imgTagAt
        = captured :: rest.tails.filterMap imgTagAt) := by
  refine ⟨extractURLs_eq, ?_, imgTagAt_eq_some_iff, imgCaptures_tag⟩
  intro ps qs
  simp only [extractURLs_eq, List.flatMap_append, List.map_append]

/-- C2, as stated, fails: a text between `[img]` and `[/img]` that contains
`[` is not recognised, and no URL is produced for it. -/
theorem extractURLs_bracket_in_tag :
    extractURLs ["[img]".toList ++ "http://abload.de/img/a[1].jpg".toList ++ "[/img]".toList]
      = [] := by
  decide

/-- C3, amended: on every list of pages, the URL emitted for a captured text
is `rewriteURL` of that text, and `rewriteURL` rewrites every non-overlapping
occurrence of `/thumb/`, taken from left to right: for a captured text in
which the first occurrence of `/thumb/` stands behind `pre`, the emitted URL
is `pre` without CR and LF, then `/img/`, then the URL emitted for the text
`post` behind that occurrence; a text without `/thumb/` is emitted unchanged
apart from the deleted CR and LF. -/
theorem extractURLs_rewrites_every_thumb (pages : List (List Char)) (pre post : List Char)
    (hfirst : ¬ "/thumb/".toList <:+: pre ++ "/thumb".toList) :
    extractURLs pages
      = (pages.flatMap (fun page => page.tails.filterMap imgTagAt)).map rewriteURL
    ∧ (∀ i : Nat,
        (pages.flatMap (fun page => page.tails.filterMap imgTagAt))[i]?
          = some (pre ++ "/thumb/".toList ++ post) →
        (extractURLs pages)[i]?
          = some (pre.filter (fun x => decide (x ≠ '\n' ∧ x ≠ '\r')) ++ "/img/".toList
              ++ rewriteURL post))
    ∧ rewriteURL (pre ++ "/thumb/".toList ++ post)
      = pre.filter (fun x => decide (x ≠ '\n' ∧ x ≠ '\r')) ++ "/img/".toList
          ++ rewriteURL post
    ∧ (¬ "/thumb/".toList <:+: post →
        rewriteURL post = post.filter (fun x => decide (x ≠ '\n' ∧ x ≠ '\r'))) := by
  have hrw : rewriteURL (pre ++ "/thumb/".toList ++ post)
      = pre.filter (fun x => decide (x ≠ '\n' ∧ x ≠ '\r')) ++ "/img/".toList
          ++ rewriteURL post := by
    have hi := stringsIndex_first pre "/thumb/".toList post (by decide) hfirst
    rw [rewriteURL_eq, rewriteURL_eq,
      stringsReplaceAll_some _ _ "/img/".toList _ (by decide) hi]
    have htake : (pre ++ "/thumb/".toList ++ post).take pre.length = pre := by
      rw [List.append_assoc, List.take_left]
    have hdrop : (pre ++ "/thumb/".toList ++ post).drop (pre.length + "/thumb/".toList.length)
        = post := by
      have : pre.length + "/thumb/".toList.length = (pre ++ "/thumb/".toList).length := by
        simp
      rw [this, List.drop_left]
    rw [htake, hdrop, List.filter_append, List.filter_append]
    rfl
  refine ⟨extractURLs_eq pages, ?_, hrw, ?_⟩
  · intro i hi
    rw [extractURLs_eq, List.getElem?_map]
    have hi2 : (pages.flatMap imgCaptures)[i]? = some (pre ++ "/thumb/".toList ++ post) := hi
    rw [hi2, Option.map_some', hrw]
  · intro hno
    rw [rewriteURL_eq,
      stringsReplaceAll_none _ _ _ ((stringsIndex_eq_none_iff _ _).mpr hno)]

theorem extractURLs_rewrites_every_thumb_witness :
    (extractURLs
        ["<p>[img]x[/img] [img]http://abload.de/thumb/a/thumb/b.jpg[/img]</p>".toList,
          "[img]y[/img]".toList])[1]?
      = some ("http://abload.de".toList ++ "/img/".toList
          ++ rewriteURL "a/thumb/b.jpg".toList) :=
  (extractURLs_rewrites_every_thumb
    ["<p>[img]x[/img] [img]http://abload.de/thumb/a/thumb/b.jpg[/img]</p>".toList,
      "[img]y[/img]".toList]
    "http://abload.de".toList "a/thumb/b.jpg".toList
    (by rw [← stringsContains_iff]; decide)).2.1 1 (by decide)

/-- C3, as stated, fails: a second occurrence of `/thumb/` in the captured
text is rewritten as well. -/
theorem extractURLs_second_thumb :
    extractURLs ["[img]http://abload.de/thumb/a/thumb/b.jpg[/img]".toList]
      = ["http://abload.de/img/a/img/b.jpg".toList]
    ∧ "http://abload.de/img/a/img/b.jpg".toList ≠ "http://abload.de/img/a/thumb/b.jpg".toList := by
  decide

/-- C4: no URL returned by `extractURLs` contains a carriage return or a line
feed; each returned URL is the captured text, after the thumbnail rewrite,
with every CR and LF deleted and the other characters kept in order. -/
theorem extractURLs_strips_line_ends (pages : List (List Char)) :
    extractURLs pages
      = (pages.flatMap (fun page => page.tails.filterMap imgTagAt)).map
          (fun captured =>
            (stringsReplaceAll captured "/thumb/".toList "/img/".toList).filter
              (fun x => decide (x ≠ '\n' ∧ x ≠ '\r')))
    ∧ ∀ url ∈ extractURLs pages, '\n' ∉ url ∧ '\r' ∉ url := by
  have h : extractURLs pages
      = (pages.flatMap (fun page => page.tails.filterMap imgTagAt)).map
          (fun captured =>
            (stringsReplaceAll captured "/thumb/".toList "/img/".toList).filter
              (fun x => decide (x ≠ '\n' ∧ x ≠ '\r'))) := by
    rw [extractURLs_eq]
    apply List.map_congr_left
    intro captured _
    exact rewriteURL_eq captured
  refine ⟨h, ?_⟩
  intro url hu
  rw [h, List.mem_map] at hu
  obtain ⟨captured, _, rfl⟩ := hu
  constructor
  · intro hm
    have := (List.mem_filter.mp hm).2
    simp at this
  · intro hm
    have := (List.mem_filter.mp hm).2
    simp at this

/-! ## The file name of a URL with a query string -/

theorem filepathBase_last_element (front name : List Char) (hne : name ≠ [])
    (hsep : '/' ∉ name) : filepathBase (front ++ '/' :: name) = name := by
  have hall : ∀ a ∈ name.reverse, decide (a ≠ '/') = true := by
    intro a ha
    simp only [decide_eq_true_eq]
    intro h
    exact hsep (h ▸ List.mem_reverse.mp ha)
  have hrev : (front ++ '/' :: name).reverse = name.reverse ++ '/' :: front.reverse := by
    simp
  have hr : name.reverse ≠ [] := by simpa using hne
  unfold filepathBase
  rw [if_neg (by simp)]
  simp only [List.reverse_reverse, hrev]
  have hd : (name.reverse ++ '/' :: front.reverse).dropWhile (fun x => decide (x = '/'))
      = name.reverse ++ '/' :: front.reverse := by
    cases hn : name.reverse with
    | nil => exact absurd hn hr
    | cons y ys =>
      have hy := hall y (by rw [hn]; exact List.mem_cons_self y ys)
      rw [List.cons_append, List.dropWhile_cons_of_neg]
      simpa using hy
  rw [hd, List.takeWhile_append_of_pos hall]
  have ht : ('/' :: front.reverse).takeWhile (fun x => decide (x ≠ '/')) = [] := by
    rw [List.takeWhile_cons_of_neg]; simp
  rw [ht, List.append_nil, List.reverse_reverse, if_neg hne]

/-- The part of C5 that holds: for a URL `<front>/<name>?<query>` whose query
string contains no `/`, and for a URL `<front>/<name>` without query string,
the file name is `<name>`. -/
theorem fileName_query_without_slash (front name query : List Char) (hne : name ≠ [])
    (hsep : '/' ∉ name) (hq : '?' ∉ name) (hquery : '/' ∉ query) :
    fileName (front ++ '/' :: name ++ '?' :: query) = name
    ∧ fileName (front ++ '/' :: name) = name := by
  have hall : ∀ a ∈ name, decide (a ≠ '?') = true := by
    intro a ha
    simp only [decide_eq_true_eq]
    intro h
    exact hq (h ▸ ha)
  constructor
  · have e : front ++ '/' :: name ++ '?' :: query = front ++ '/' :: (name ++ '?' :: query) := by
      simp
    rw [fileName_eq, e, filepathBase_last_element front (name ++ '?' :: query) (by simp)
      (by
        simp only [List.mem_append, List.mem_cons, not_or]
        exact ⟨hsep, by decide, hquery⟩),
      List.takeWhile_append_of_pos hall, List.takeWhile_cons_of_neg (by simp)]
    simp
  · rw [fileName_eq, filepathBase_last_element front name hne hsep]
    rw [List.takeWhile_eq_self_iff]
    exact hall

theorem fileName_query_without_slash_witness :
    fileName "https://abload.de/img/foo123.jpg?t=1700000000".toList = "foo123.jpg".toList :=
  (fileName_query_without_slash "https://abload.de/img".toList "foo123.jpg".toList
    "t=1700000000".toList (by decide) (by decide) (by decide) (by decide)).1

/-- C5, at the failing input: for a URL whose query string contains `/`, the
file name is taken from the query string, not from the path. -/
theorem fileName_query_with_slash :
    fileName "https://abload.de/img/foo123.jpg?next=/img/bar.png".toList
      = "bar.png".toList := by
  decide

/-! ## `validateThreads` -/

theorem validateThreadsLoop_ok (net : Nat → List Char → MetaResult) (ov : Nat → Overview)
    (ids : List (List Char)) :
    ∀ (i : Nat) (valid : List Thread),
      (∀ j (hj : j < ids.length),
        net (i + j) (sprintfBaseURL ids[j]) = MetaResult.decoded (ov (i + j))) →
      (validateThreadsLoop net i ids valid).2 =
        (valid ++ ((ids.enumFrom i).filter
            (fun p => decide (0 < (ov p.1).NumberOfPagesValue))).map
            (fun p => descriptorOf p.2 (ov p.1)), none) := by
  induction ids with
  | nil => intro i valid _; simp [validateThreadsLoop]
  | cons tid rest ih =>
    intro i valid h
    have h0 := h 0 (by simp)
    simp only [Nat.add_zero, List.getElem_cons_zero] at h0
    have hrest : ∀ j (hj : j < rest.length),
        net (i + 1 + j) (sprintfBaseURL rest[j]) = MetaResult.decoded (ov (i + 1 + j)) := by
      intro j hj
      have := h (j + 1) (by simp; omega)
      simpa [Nat.add_assoc, Nat.add_comm 1 j] using this
    unfold validateThreadsLoop
    simp only [h0]
    by_cases hp : (ov i).NumberOfPagesValue > 0
    · rw [if_pos hp]
      simp only [ih (i + 1) _ hrest, List.enumFrom_cons]
      rw [List.filter_cons_of_pos (by simpa using hp)]
      simp [descriptorOf]
    · rw [if_neg hp]
      simp only [ih (i + 1) _ hrest, List.enumFrom_cons]
      rw [List.filter_cons_of_neg (by simpa using hp)]

/-- C6: when every metadata request and XML decode succeeds, `validateThreads`
returns no error and, in the order of the input identifiers, exactly one
descriptor for each identifier whose reported page count is positive and none
for the others; the descriptor has the identifier as `Tid`, the reported page
count as `Pages` (so `Pages >= 1`) and `<title> (<identifier>)` as
`FolderName`. -/
theorem validateThreads_all_succeed (net : Nat → List Char → MetaResult)
    (threadIDs : List (List Char)) (ov : Nat → Overview)
    (h : ∀ i (hi : i < threadIDs.length),
      net i (sprintfBaseURL threadIDs[i]) = MetaResult.decoded (ov i)) :
    (validateThreads net threadIDs).2 =
      (((threadIDs.enum).filter (fun p => decide (0 < (ov p.1).NumberOfPagesValue))).map
        (fun p =>
          { Tid := p.2, URL := sprintfBaseURL p.2, Pages := (ov p.1).NumberOfPagesValue,
            FolderName := (ov p.1).Title ++ " (".toList ++ p.2 ++ ")".toList }),
        none)
    ∧ ∀ t ∈ (validateThreads net threadIDs).2.1, 1 ≤ t.Pages := by
  have key := validateThreadsLoop_ok net ov threadIDs 0 []
    (by intro j hj; simpa using h j hj)
  have e : (validateThreads net threadIDs).2 =
      (((threadIDs.enum).filter (fun p => decide (0 < (ov p.1).NumberOfPagesValue))).map
        (fun p => descriptorOf p.2 (ov p.1)), none) := by
    unfold validateThreads
    rw [key]; simp [List.enum]
  refine ⟨by rw [e]; rfl, ?_⟩
  intro t ht
  rw [e] at ht
  simp only [List.mem_map, List.mem_filter, decide_eq_true_eq] at ht
  obtain ⟨p, ⟨_, hp⟩, rfl⟩ := ht
  simp only [descriptorOf]
  omega

theorem validateThreads_all_succeed_witness :
    (validateThreads
        (fun i _ => MetaResult.decoded (if i = 0 then ⟨3, "Cats".toList⟩ else ⟨0, [] ⟩))
        ["17".toList, "18".toList]).2 =
      ([{ Tid := "17".toList, URL := sprintfBaseURL "17".toList, Pages := 3,
          FolderName := "Cats (17)".toList }], none) := by
  have h := (validateThreads_all_succeed
    (fun i _ => MetaResult.decoded (if i = 0 then ⟨3, "Cats".toList⟩ else ⟨0, []⟩))
    ["17".toList, "18".toList]
    (fun i => if i = 0 then ⟨3, "Cats".toList⟩ else ⟨0, []⟩)
    (by intro i _; rfl)).1
  rw [h]
  decide

theorem validateThreadsLoop_events (net : Nat → List Char → MetaResult)
    (ids : List (List Char)) :
    ∀ (i : Nat) (valid : List Thread),
      ∀ e ∈ (validateThreadsLoop net i ids valid).1, e.isValidation = true := by
  induction ids with
  | nil => intro i valid e he; simp [validateThreadsLoop] at he
  | cons tid rest ih =>
    intro i valid e he
    unfold validateThreadsLoop at he
    cases hn : net i (sprintfBaseURL tid) with
    | requestError => simp [hn] at he
    | fetchError => simp [hn] at he; subst he; rfl
    | parseError => simp [hn] at he; subst he; rfl
    | decoded ov =>
      simp only [hn] at he
      split at he
      · simp only [List.mem_cons] at he
        rcases he with rfl | he
        · rfl
        · exact ih _ _ e he
      · simp only [List.mem_cons] at he
        rcases he with rfl | rfl | he
        · rfl
        · rfl
        · exact ih _ _ e he

theorem validateThreadsLoop_fails (net : Nat → List Char → MetaResult)
    (ids : List (List Char)) :
    ∀ (i : Nat) (valid : List Thread) (j : Nat) (hj : j < ids.length),
      (∀ ov, net (i + j) (sprintfBaseURL ids[j]) ≠ MetaResult.decoded ov) →
      ∃ err, (validateThreadsLoop net i ids valid).2 = ([], some err) := by
  induction ids with
  | nil => intro i valid j hj; simp at hj
  | cons tid rest ih =>
    intro i valid j hj hfail
    unfold validateThreadsLoop
    cases hn : net i (sprintfBaseURL tid) with
    | requestError => simp only [hn]; exact ⟨_, rfl⟩
    | fetchError => simp only [hn]; exact ⟨_, rfl⟩
    | parseError => simp only [hn]; exact ⟨_, rfl⟩
    | decoded ov =>
      cases j with
      | zero => exact absurd hn (by simpa using hfail ov)
      | succ j =>
        have hj2 : j < rest.length := by simpa using hj
        have hf : ∀ ov, net (i + 1 + j) (sprintfBaseURL rest[j]) ≠ MetaResult.decoded ov := by
          intro ov2
          have := hfail ov2
          simpa [Nat.add_assoc, Nat.add_comm 1 j] using this
        simp only [hn]
        split
        · exact ih (i + 1) _ j hj2 hf
        · exact ih (i + 1) _ j hj2 hf

/-- C7: if the metadata request or the XML decode fails for some identifier
of the input list, `validateThreads` returns an error and no descriptors,
and `run` returns an error that wraps it, having done nothing but the
validation pass: no folder is created, no page fetched and no download
started. -/
theorem validateThreads_failure_aborts_run (w : World) (threadIDs : List (List Char))
    (i : Nat) (hi : i < threadIDs.length)
    (hfail : ∀ ov, w.overview i (sprintfBaseURL threadIDs[i]) ≠ MetaResult.decoded ov) :
    (∃ err, (validateThreads w.overview threadIDs).2 = ([], some err)
      ∧ (run w threadIDs).2 = some (SaugError.validatingThreads err))
    ∧ ∀ e ∈ (run w threadIDs).1, e.isValidation = true ∨ e = Event.cancel := by
  obtain ⟨err, herr⟩ := validateThreadsLoop_fails w.overview threadIDs 0 [] i hi
    (by simpa using hfail)
  have hv : (validateThreads w.overview threadIDs).2 = ([], some err) := herr
  have hv2 : (validateThreads w.overview threadIDs).2.2 = some err := by rw [hv]
  have hrun : run w threadIDs
      = ((validateThreads w.overview threadIDs).1 ++ [Event.cancel],
          some (SaugError.validatingThreads err)) := by
    simp only [run, hv2]
  refine ⟨⟨err, hv, by rw [hrun]⟩, ?_⟩
  intro e he
  rw [hrun] at he
  simp only [List.mem_append, List.mem_singleton] at he
  rcases he with he | he
  · exact Or.inl (validateThreadsLoop_events w.overview threadIDs 0 [] e he)
  · exact Or.inr he

theorem validateThreads_failure_aborts_run_witness :
    ∃ err, (run worldParseError ["17".toList, "18".toList]).2
      = some (SaugError.validatingThreads err) :=
  have h := validateThreads_failure_aborts_run worldParseError ["17".toList, "18".toList] 1
    (by decide) (by intro ov; simp [worldParseError])
  h.1.elim (fun err he => ⟨err, he.2⟩)

/-! ## `downloadURLs` -/

theorem downloadURLsLoop_requested (net : Nat → List Char → DownloadResult) (thread : Thread)
    (urls : List (List Char)) :
    ∀ i, (downloadURLsLoop net thread i urls).filterMap DownloadEvent.requested = urls := by
  induction urls with
  | nil => intro i; rfl
  | cons url rest ih =>
    intro i
    unfold downloadURLsLoop
    simp only [List.filterMap_append, ih]
    cases net i url with
    | requestError => simp [DownloadEvent.requested]
    | transportError => simp [DownloadEvent.requested]
    | status code createFails copyFails =>
      by_cases hc : code = 200
      · cases createFails <;> cases copyFails <;> simp [hc, DownloadEvent.requested]
      · simp [hc, DownloadEvent.requested]

theorem downloadURLsLoop_done (net : Nat → List Char → DownloadResult) (thread : Thread)
    (urls : List (List Char)) :
    ∀ i, DownloadEvent.done ∉ downloadURLsLoop net thread i urls := by
  induction urls with
  | nil => intro i; simp [downloadURLsLoop]
  | cons url rest ih =>
    intro i
    unfold downloadURLsLoop
    simp only [List.mem_append, not_or]
    refine ⟨?_, ih (i + 1)⟩
    cases net i url with
    | requestError => simp
    | transportError => simp
    | status code createFails copyFails =>
      by_cases hc : code = 200
      · cases createFails <;> cases copyFails <;> simp [hc]
      · simp [hc]

theorem downloadURLsLoop_fetched (net : Nat → List Char → DownloadResult) (thread : Thread)
    (urls : List (List Char)) :
    ∀ i, (downloadURLsLoop net thread i urls).filterMap DownloadEvent.fetched
      = ((urls.enumFrom i).filter
          (fun p => decide (net p.1 p.2 ≠ DownloadResult.requestError))).map Prod.snd := by
  induction urls with
  | nil => intro i; rfl
  | cons url rest ih =>
    intro i
    unfold downloadURLsLoop
    simp only [List.filterMap_append, ih, List.enumFrom_cons, List.filter_cons]
    cases hn : net i url with
    | requestError => simp [DownloadEvent.fetched]
    | transportError => simp [DownloadEvent.fetched]
    | status code createFails copyFails =>
      by_cases hc : code = 200
      · cases createFails <;> cases copyFails <;> simp [hc, DownloadEvent.fetched]
      · simp [hc, DownloadEvent.fetched]

theorem downloadURLsLoop_created (net : Nat → List Char → DownloadResult) (thread : Thread)
    (urls : List (List Char)) :
    ∀ i, (downloadURLsLoop net thread i urls).filterMap DownloadEvent.created
      = ((urls.enumFrom i).filter (fun p => (net p.1 p.2).statusOK)).map
          (fun p => location thread p.2) := by
  induction urls with
  | nil => intro i; rfl
  | cons url rest ih =>
    intro i
    unfold downloadURLsLoop
    simp only [List.filterMap_append, ih, List.enumFrom_cons, List.filter_cons]
    cases hn : net i url with
    | requestError => simp [DownloadEvent.created, DownloadResult.statusOK]
    | transportError => simp [DownloadEvent.created, DownloadResult.statusOK]
    | status code createFails copyFails =>
      by_cases hc : code = 200
      · cases createFails <;> cases copyFails <;>
          simp [hc, DownloadEvent.created, DownloadResult.statusOK]
      · simp [hc, DownloadEvent.created, DownloadResult.statusOK]

theorem downloadURLsLoop_copied (net : Nat → List Char → DownloadResult) (thread : Thread)
    (urls : List (List Char)) :
    ∀ i, (downloadURLsLoop net thread i urls).filterMap DownloadEvent.copied
      = ((urls.enumFrom i).filter (fun p => (net p.1 p.2).statusOK)).map
          (fun p => location thread p.2) := by
  induction urls with
  | nil => intro i; rfl
  | cons url rest ih =>
    intro i
    unfold downloadURLsLoop
    simp only [List.filterMap_append, ih, List.enumFrom_cons, List.filter_cons]
    cases hn : net i url with
    | requestError => simp [DownloadEvent.copied, DownloadResult.statusOK]
    | transportError => simp [DownloadEvent.copied, DownloadResult.statusOK]
    | status code createFails copyFails =>
      by_cases hc : code = 200
      · cases createFails <;> cases copyFails <;>
          simp [hc, DownloadEvent.copied, DownloadResult.statusOK]
      · simp [hc, DownloadEvent.copied, DownloadResult.statusOK]

/-- C8: whatever happens to the single URLs (the request cannot be built, the
transport fails, the status is not 200, the file cannot be created, the copy
fails), `downloadURLs` processes every URL of the list exactly once and in
list order, and what it does for a URL depends on the outcome of that URL
alone, never on a failure before it: it builds a request for every URL, sends
the request for every URL whose request could be built, creates the
destination file and copies the body for every URL answered with status 200;
then it signals completion, exactly once and as its last action.  It has no
error result. -/
theorem downloadURLs_attempts_every_url (net : Nat → List Char → DownloadResult)
    (thread : Thread) (urls : List (List Char)) :
    (downloadURLs net thread urls).filterMap DownloadEvent.requested = urls
    ∧ (downloadURLs net thread urls).filterMap DownloadEvent.fetched
      = ((urls.enum).filter
          (fun p => decide (net p.1 p.2 ≠ DownloadResult.requestError))).map Prod.snd
    ∧ (downloadURLs net thread urls).filterMap DownloadEvent.created
      = ((urls.enum).filter (fun p => (net p.1 p.2).statusOK)).map
          (fun p => location thread p.2)
    ∧ (downloadURLs net thread urls).filterMap DownloadEvent.copied
      = ((urls.enum).filter (fun p => (net p.1 p.2).statusOK)).map
          (fun p => location thread p.2)
    ∧ (downloadURLs net thread urls).getLast? = some DownloadEvent.done
    ∧ (downloadURLs net thread urls).count DownloadEvent.done = 1 := by
  refine ⟨?_, ?_, ?_, ?_, ?_, ?_⟩
  · unfold downloadURLs
    rw [List.filterMap_append, downloadURLsLoop_requested]
    simp [DownloadEvent.requested]
  · unfold downloadURLs
    rw [List.filterMap_append, downloadURLsLoop_fetched]
    simp [DownloadEvent.fetched, List.enum]
  · unfold downloadURLs
    rw [List.filterMap_append, downloadURLsLoop_created]
    simp [DownloadEvent.created, List.enum]
  · unfold downloadURLs
    rw [List.filterMap_append, downloadURLsLoop_copied]
    simp [DownloadEvent.copied, List.enum]
  · unfold downloadURLs
    simp
  · unfold downloadURLs
    rw [List.count_append, List.count_eq_zero_of_not_mem (downloadURLsLoop_done net thread urls 0)]
    simp

/-! ## The destination path -/

theorem location_eq (thread : Thread) (url : List Char) (h : thread.FolderName ≠ []) :
    location thread url = filepathClean (thread.FolderName ++ '/' :: fileName url) := by
  unfold location filepathJoin
  rw [List.dropWhile_cons_of_neg (by simpa using h)]
  simp only
  congr 1
  cases hn : fileName url <;> simp [List.intercalate, List.intersperse]

/-- The part of C9 that holds: for every thread descriptor that
`validateThreads` builds and every URL that `filterURLs` retains, the derived
file name contains no path separator, and whenever it is not empty, not `.`
and not `..`, the destination path is the cleaned folder name, a path
separator, and the file name. -/
theorem location_under_folder (tid : List Char) (overview : Overview)
    (urls : List (List Char)) (url : List Char) (hurl : url ∈ filterURLs urls) :
    '/' ∉ fileName url
    ∧ (fileName url ≠ [] → fileName url ≠ ".".toList → fileName url ≠ "..".toList →
        location (descriptorOf tid overview) url
          = filepathClean (descriptorOf tid overview).FolderName
            ++ "/".toList ++ fileName url) := by
  have hin : "abload.de/".toList <:+: url := by
    rw [filterURLs_eq, List.mem_filter] at hurl
    simpa using hurl.2
  have hsep := fileName_no_separator url hin
  refine ⟨hsep, ?_⟩
  intro h0 h1 h2
  have hf : (descriptorOf tid overview).FolderName
      = (overview.Title ++ " (".toList ++ tid) ++ [')'] := by
    simp [descriptorOf]
  rw [location_eq _ _ (by rw [hf]; simp), hf,
    filepathClean_append_element _ _ ')' (by decide) (by decide) hsep h0 h1 h2]
  simp

theorem location_under_folder_witness :
    location (descriptorOf "17".toList ⟨1, "Cats".toList⟩)
        "https://abload.de/img/foo123.jpg?t=1700000000".toList
      = filepathClean (descriptorOf "17".toList ⟨1, "Cats".toList⟩).FolderName
        ++ "/".toList ++ fileName "https://abload.de/img/foo123.jpg?t=1700000000".toList :=
  (location_under_folder "17".toList ⟨1, "Cats".toList⟩
    ["https://abload.de/img/foo123.jpg?t=1700000000".toList]
    "https://abload.de/img/foo123.jpg?t=1700000000".toList (by decide)).2
    (by decide) (by decide) (by decide)

/-- C9, at the failing inputs: `filterURLs` retains a URL that ends in `/..`
and one with `?` right behind the last `/`; the file name of the first is
`..` and its destination path is the parent of the thread folder, the file
name of the second is empty and its destination path is the thread folder
itself; the download unit calls `os.Create` on both paths. -/
theorem location_outside_folder :
    filterURLs ["http://abload.de/..".toList, "http://abload.de/?a.jpg".toList]
      = ["http://abload.de/..".toList, "http://abload.de/?a.jpg".toList]
    ∧ fileName "http://abload.de/..".toList = "..".toList
    ∧ location (descriptorOf "17".toList ⟨1, "Cats".toList⟩) "http://abload.de/..".toList
      = ".".toList
    ∧ fileName "http://abload.de/?a.jpg".toList = []
    ∧ location (descriptorOf "17".toList ⟨1, "Cats".toList⟩) "http://abload.de/?a.jpg".toList
      = "Cats (17)".toList
    ∧ (downloadURLs (fun _ _ => DownloadResult.status 200 false false)
        (descriptorOf "17".toList ⟨1, "Cats".toList⟩)
        ["http://abload.de/..".toList, "http://abload.de/?a.jpg".toList]).filterMap
          DownloadEvent.created
      = [".".toList, "Cats (17)".toList] := by
  decide

/-! ## `run` -/

/-- C10, at the failing input: with two valid threads, when the page request
of the second thread fails after the download unit of the first was started,
`run` returns the error without having executed `wait.Wait()`. -/
theorem run_returns_without_waiting :
    Event.goDownload (descriptorOf "17".toList ⟨1, "Cats".toList⟩)
        ["http://abload.de/img/a.jpg".toList]
      ∈ (run worldSecondPageFails ["17".toList, "18".toList]).1
    ∧ Event.waitWait ∉ (run worldSecondPageFails ["17".toList, "18".toList]).1
    ∧ (run worldSecondPageFails ["17".toList, "18".toList]).2
      = some (SaugError.gettingPages "18".toList SaugError.fetchingPage) := by
  decide

/-- The path that does wait: when `run` returns no error, its last actions
are `wait.Wait()`, behind every started download unit, and the deferred
`cancel()`. -/
theorem run_waits_when_no_error (w : World) (threadIDs : List (List Char))
    (h : (run w threadIDs).2 = none) :
    ∃ before, (run w threadIDs).1 = before ++ [Event.waitWait, Event.cancel] := by
  unfold run at h ⊢
  dsimp only at h ⊢
  split at h
  · cases h
  · split at h
    · cases h
    · split at h
      · cases h
      · exact ⟨_, rfl⟩

end Saug
